import Mathlib

/-!
Verification of the protoviewer core (lexical scanner, recursive-descent
parser, tree-info engine, tree transforms, serializer) against its
natural-language specification.

The JavaScript source is shallowly embedded: the input text is a list of
characters together with an integer position, JS parse results become a
`PR` record, and parsed values become the inductive type `Node` (a JS
value reachable from the parser is a string, an array of values, or an
object mapping field names to values; field order is insertion order,
modelled by an association list).  JS loops and the mutual recursion of
the parser are realised with an explicit fuel argument that top-level
wrappers instantiate with a bound large enough for the recursion depth,
so every definition is executable and kernel-reducible.
-/

namespace protoviewer

/-- A JS value produced by the parser: a string scalar, an array
(produced by `parse_list`), or an object mapping field names to values
(for parsed protos each field value is an array of element values). -/
inductive Node where
  | str : String → Node
  | arr : List Node → Node
  | obj : List (String × Node) → Node
deriving Repr

mutual

/-- Decidable equality for `Node` (the automatic derivation does not
handle the nested occurrences). -/
def decEqNode : (a b : Node) → Decidable (a = b)
  | .str s, .str t =>
    if h : s = t then isTrue (by rw [h]) else isFalse (by intro hh; injection hh; contradiction)
  | .str _, .arr _ => isFalse (by intro h; exact Node.noConfusion h)
  | .str _, .obj _ => isFalse (by intro h; exact Node.noConfusion h)
  | .arr _, .str _ => isFalse (by intro h; exact Node.noConfusion h)
  | .arr xs, .arr ys =>
    match decEqNodeList xs ys with
    | isTrue h => isTrue (by rw [h])
    | isFalse h => isFalse (by intro hh; injection hh; contradiction)
  | .arr _, .obj _ => isFalse (by intro h; exact Node.noConfusion h)
  | .obj _, .str _ => isFalse (by intro h; exact Node.noConfusion h)
  | .obj _, .arr _ => isFalse (by intro h; exact Node.noConfusion h)
  | .obj fs, .obj gs =>
    match decEqNodeFields fs gs with
    | isTrue h => isTrue (by rw [h])
    | isFalse h => isFalse (by intro hh; injection hh; contradiction)

/-- Decidable equality for lists of nodes. -/
def decEqNodeList : (a b : List Node) → Decidable (a = b)
  | [], [] => isTrue rfl
  | [], _ :: _ => isFalse (by intro h; exact List.noConfusion h)
  | _ :: _, [] => isFalse (by intro h; exact List.noConfusion h)
  | x :: xs, y :: ys =>
    match decEqNode x y, decEqNodeList xs ys with
    | isTrue h1, isTrue h2 => isTrue (by rw [h1, h2])
    | isFalse h1, _ => isFalse (by intro hh; injection hh; contradiction)
    | _, isFalse h2 => isFalse (by intro hh; injection hh; contradiction)

/-- Decidable equality for field lists. -/
def decEqNodeFields : (a b : List (String × Node)) → Decidable (a = b)
  | [], [] => isTrue rfl
  | [], _ :: _ => isFalse (by intro h; exact List.noConfusion h)
  | _ :: _, [] => isFalse (by intro h; exact List.noConfusion h)
  | (k, v) :: fs, (l, w) :: gs =>
    if h : k = l then
      match decEqNode v w, decEqNodeFields fs gs with
      | isTrue h1, isTrue h2 => isTrue (by rw [h, h1, h2])
      | isFalse h1, _ => isFalse (by intro hh; injection hh with hp hq; exact h1 (congrArg Prod.snd hp))
      | _, isFalse h2 => isFalse (by intro hh; injection hh; contradiction)
    else
      isFalse (by intro hh; injection hh with hp hq; exact h (congrArg Prod.fst hp))

end

instance : DecidableEq Node := decEqNode

/-- The result record `{value, position, error}` returned by every
`parse_...` function in the source. -/
structure PR (α : Type) where
  value : α
  position : Nat
  error : Option String
deriving Repr, DecidableEq

/-- The single-quote character (ASCII 39). -/
def squote : Char := Char.ofNat 39

/-- The backslash character (ASCII 92). -/
def bslash : Char := Char.ofNat 92

/-- JS `/\s/` on the ASCII range: space, tab, newline, carriage return,
vertical tab, form feed. -/
def isWsChar (c : Char) : Bool :=
  c = ' ' || c = '\t' || c = '\n' || c = '\r' || c = Char.ofNat 11 || c = Char.ofNat 12

/-- JS `/[\w\.\-\+\/]/`: word characters plus `.`, `-`, `+`, `/`
(the value-token character class of `parse_token`). -/
def isTokenChar (c : Char) : Bool :=
  c.isAlphanum || c = '_' || c = '.' || c = '-' || c = '+' || c = '/'

/-- JS `/[\w\.\[\]\-\+\/]/`: the token class extended with `[` and `]`,
used for field names (`should_include_brackets`). -/
def isTokenBracketChar (c : Char) : Bool :=
  isTokenChar c || c = '[' || c = ']'

/-- JS `text.charAt(ii)` as a string: the one-character string at `ii`,
or the empty string out of range. -/
def jsCharAtStr (text : List Char) (ii : Nat) : String :=
  match text.get? ii with
  | some c => String.singleton c
  | none => ""

/-- JS `text.substr(start, len)`: a negative `start` counts from the end
of the string (clamped at 0). -/
def jsSubstr (text : List Char) (start : Int) (len : Nat) : String :=
  let b : Nat := if start < 0 then ((text.length : Int) + start).toNat
                 else min start.toNat text.length
  String.mk ((text.drop b).take len)

/-- `protoviewer.make_error` (all callers omit the optional `len`
parameter, whose default is 10). -/
def make_error (message : String) (text : List Char) (ii : Nat) : String :=
  let len : Nat := 10
  message ++ " at: " ++ toString ii ++ " = " ++ jsCharAtStr text ii ++
    " (" ++ jsSubstr text ((ii : Int) - (len : Int)) (len * 2) ++ ")"

/-- `protoviewer.consume_regexp`: the maximal run of characters matching
the class starting at `ii`; value is the run, position the index after
it, error always null. -/
def consume_regexp (text : List Char) (ii : Nat) (regexp : Char → Bool) : PR String :=
  let run := (text.drop ii).takeWhile regexp
  ⟨String.mk run, ii + run.length, none⟩

/-- `protoviewer.consume_whitespace`. -/
def consume_whitespace (text : List Char) (ii : Nat) : Nat :=
  (consume_regexp text ii isWsChar).position

/-- The inner loop of `consume_comments`:
`while (ii < text.length && text.charAt(ii++) != "\n") {}` — advances
one past the first newline at or after `ii`, or to the end of text. -/
def consume_line (text : List Char) (ii : Nat) : Nat :=
  min text.length (ii + ((text.drop ii).takeWhile (fun c => c ≠ '\n')).length + 1)

/-- The outer loop of `consume_comments`: while the current character is
`#`, skip through the newline and the following whitespace.  Each
iteration advances the position, so `text.length + 1` units of fuel
always suffice. -/
def cc_loop : Nat → List Char → Nat → Nat
  | 0, _, ii => ii
  | n + 1, text, ii =>
    if ii < text.length ∧ text.get? ii = some '#' then
      cc_loop n text (consume_whitespace text (consume_line text ii))
    else ii

/-- `protoviewer.consume_comments`: whitespace, then alternating
comment lines and whitespace. -/
def consume_comments (text : List Char) (ii : Nat) : Nat :=
  cc_loop (text.length + 1) text (consume_whitespace text ii)

/-- `protoviewer.is_defined` applied to the `value` field of a token
result.  In JS it tests `typeof obj !== 'undefined'`; a string value —
even the empty string — is always defined, so on strings the test is
constantly true. -/
def is_defined (_ : String) : Bool := true

/-- The scan loop of `parse_string` over the characters after the
opening quote.  Each character is pushed onto the value (including, on
success, the terminating quote); a backslash escapes exactly the next
character.  Returns the pushed characters, the offset of the final scan
position from the start of `rest`, and whether the unescaped terminator
was found. -/
def ps_scan (quote : Char) : List Char → Bool → List Char × Nat × Bool
  | [], _ => ([], 0, false)
  | c :: rest, escape =>
    if !escape && c = quote then ([c], 0, true)
    else
      let escape' := !escape && c = bslash
      let r := ps_scan quote rest escape'
      (c :: r.1, r.2.1 + 1, r.2.2)

/-- `protoviewer.parse_string`: requires the current character to be a
quote; the value accumulates every character from the opening quote up
to and including the unescaped terminator (quotes retained, escapes kept
verbatim).  On success the position moves past the terminator and any
trailing comments; if the text ends first, the error is
"No end of string found". -/
def parse_string (text : List Char) (ii : Nat) : PR String :=
  match text.get? ii with
  | some q =>
    if q = squote ∨ q = '"' then
      let r := ps_scan q (text.drop (ii + 1)) false
      let value := String.mk (q :: r.1)
      let jj := ii + 1 + r.2.1
      if jj ≥ text.length then
        ⟨value, jj, some ("No end of string found: " ++ toString ii)⟩
      else if text.get? jj = some q then
        ⟨value, consume_comments text (jj + 1), none⟩
      else ⟨value, jj, none⟩
    else
      ⟨"", ii, some ("Invalid string, doesn" ++ String.singleton squote ++
        "t start with quote: " ++ jsCharAtStr text ii)⟩
  | none =>
    ⟨"", ii, some ("Invalid string, doesn" ++ String.singleton squote ++
      "t start with quote: " ++ jsCharAtStr text ii)⟩

/-- `protoviewer.parse_token`: a quoted string if the current character
is a quote, otherwise the maximal run of token characters (with `[` `]`
admitted when `should_include_brackets`).  The final
`!is_defined(result.value)` test can never fire — the value is always a
(possibly empty) string — so the "Error parsing token" branch is dead
and a zero-length match is returned as a silent success. -/
def parse_token (text : List Char) (ii : Nat) (should_include_brackets : Bool) : PR String :=
  let result :=
    if text.get? ii = some '"' ∨ text.get? ii = some squote then
      parse_string text ii
    else
      let regexp := if should_include_brackets then isTokenBracketChar else isTokenChar
      let r := consume_regexp text ii regexp
      { r with error := none }
  if !(is_defined result.value) then
    { result with error := some (make_error "Error parsing token" text ii) }
  else result

/-- The field-append step of `parse_body` (source lines 160–163):
`if (!(name in result.value)) result.value[name] = [];
result.value[name].push(value.value);` — the value is appended to the
field's sequence, never overwriting; a new field is added at the end of
the iteration order. -/
def pushElem : Node → Node → Node
  | .arr xs, v => .arr (xs ++ [v])
  | w, _ => w

/-- Append `v` to field `name` of the tree, creating the field (at the
end of the field order) on first occurrence. -/
def add_field (tree : List (String × Node)) (name : String) (v : Node) :
    List (String × Node) :=
  if (tree.map Prod.fst).contains name then
    tree.map (fun kv => if kv.1 = name then (kv.1, pushElem kv.2 v) else kv)
  else tree ++ [(name, Node.arr [v])]

mutual

/-- `protoviewer.parse_proto` (fuelled): skip comments, note and consume
an optional opening brace, parse the body, and if a brace was opened
require (and consume) the matching `}`, reporting
"Missing Closing Brace" otherwise. -/
def parse_proto_aux : Nat → List Char → Nat → Option (String → Bool) → PR Node
  | 0, _, ii, _ => ⟨.obj [], ii, some "out of fuel"⟩
  | n + 1, text, ii, filter_func =>
    let ii := consume_comments text ii
    let has_braces := text.get? ii = some '{'
    let ii := if has_braces then ii + 1 else ii
    let result := parse_body_loop n text ii filter_func []
    if result.error ≠ none then result
    else if has_braces then
      let ii := consume_comments text result.position
      let err := if text.get? ii ≠ some '}' then some "Missing Closing Brace" else none
      let ii := if text.get? ii ≠ some '}' then ii else ii + 1
      let ii := consume_comments text ii
      ⟨result.value, ii, err⟩
    else result
termination_by structural n => n

/-- One transcription of `parse_body`'s `while` loop.  Each iteration:
skip comments, parse a (bracketed) name token, skip comments, consume an
optional `:`, skip comments, parse a value, adopt its position when
non-zero (JS truthiness of `value.position`), skip comments, append the
value to the field unless the filter excludes the name, stop with the
value's error if it failed, consume an optional `,`, and abort with the
"Infinite loop" internal error when the position did not advance. -/
def parse_body_loop : Nat → List Char → Nat → Option (String → Bool) →
    List (String × Node) → PR Node
  | 0, _, ii, _, acc => ⟨.obj acc, ii, some "out of fuel"⟩
  | n + 1, text, ii, filter_func, acc =>
    if ii < text.length ∧ text.get? ii ≠ some '}' then
      let old_ii := ii
      let ii := consume_comments text ii
      let name := parse_token text ii true
      match name.error with
      | some e => ⟨.obj acc, ii, some e⟩
      | none =>
        let ii := name.position
        let ii := consume_comments text ii
        let ii := if text.get? ii = some ':' then ii + 1 else ii
        let ii := consume_comments text ii
        let value := parse_value_aux n text ii filter_func
        let ii := if value.position ≠ 0 then value.position else ii
        let ii := consume_comments text ii
        let acc :=
          if (match filter_func with
              | none => true
              | some f => !(f name.value)) then
            add_field acc name.value value.value
          else acc
        match value.error with
        | some e => ⟨.obj acc, ii, some e⟩
        | none =>
          let ii := if text.get? ii = some ',' then consume_comments text (ii + 1) else ii
          if ii = old_ii then
            ⟨.obj acc, ii, some (make_error "Internal error!  Infinite loop" text ii)⟩
          else
            parse_body_loop n text ii filter_func acc
    else ⟨.obj acc, ii, none⟩
termination_by structural n => n

/-- `protoviewer.parse_value` (fuelled): dispatch on the current
character — `{` parses a proto, `[` a list, anything else a token
(without brackets); the token's string value is a scalar node. -/
def parse_value_aux : Nat → List Char → Nat → Option (String → Bool) → PR Node
  | 0, _, ii, _ => ⟨.obj [], ii, some "out of fuel"⟩
  | n + 1, text, ii, filter_func =>
    if text.get? ii = some '{' then parse_proto_aux n text ii filter_func
    else if text.get? ii = some '[' then parse_list_aux n text ii filter_func
    else
      let r := parse_token text ii false
      ⟨.str r.value, r.position, r.error⟩
termination_by structural n => n

/-- `protoviewer.parse_list` (fuelled): consume the `[` (and comments),
run the element loop, then the epilogue — text exhausted means
"No end of list found: " (overwriting any loop error), a `]` is consumed
together with trailing comments; the loop's early return on a failing
element skips the epilogue entirely. -/
def parse_list_aux : Nat → List Char → Nat → Option (String → Bool) → PR Node
  | 0, _, ii, _ => ⟨.obj [], ii, some "out of fuel"⟩
  | n + 1, text, ii, filter_func =>
    let ii := if text.get? ii = some '[' then consume_comments text (ii + 1) else ii
    match parse_list_loop n text ii filter_func [] with
    | .inl (acc, pos) => ⟨.arr acc, pos, none⟩
    | .inr (acc, ii, err) =>
      if text.length ≤ ii then ⟨.arr acc, ii, some "No end of list found: "⟩
      else if text.get? ii = some ']' then
        ⟨.arr acc, consume_comments text (ii + 1), err⟩
      else ⟨.arr acc, ii, err⟩
termination_by structural n => n

/-- The element loop of `parse_list`.  An element whose parse fails
makes the whole list return immediately with the failing element's
position and a **null** error (`result.error` was never set on that
path), modelled by the `inl` early-return case; a normal exit (`inr`)
carries the elements, the position and the loop's own error (set only by
the unrecognized-character guard). -/
def parse_list_loop : Nat → List Char → Nat → Option (String → Bool) →
    List Node → (List Node × Nat) ⊕ (List Node × Nat × Option String)
  | 0, _, ii, _, acc => .inr (acc, ii, some "out of fuel")
  | n + 1, text, ii, filter_func, acc =>
    if ii < text.length ∧ text.get? ii ≠ some ']' then
      let old_ii := ii
      let item := parse_value_aux n text ii filter_func
      match item.error with
      | some _ => .inl (acc, item.position)
      | none =>
        let ii := item.position
        let ii := consume_comments text ii
        let acc := acc ++ [item.value]
        let ii := if ii < text.length ∧ text.get? ii = some ',' then
            consume_comments text (ii + 1)
          else ii
        if old_ii = ii then
          .inr (acc, ii, some (make_error "Error parsing list, unrecognized character" text ii))
        else
          parse_list_loop n text ii filter_func acc
    else .inr (acc, ii, none)
termination_by structural n => n

end

/-- `protoviewer.parse_body` (fuelled): the loop starts with an empty
object accumulator. -/
def parse_body_aux (n : Nat) (text : List Char) (ii : Nat)
    (filter_func : Option (String → Bool)) : PR Node :=
  parse_body_loop n text ii filter_func []

/-- Fuel bound used by the top-level wrappers: each loop iteration and
each nested production consumes at least one character, and productions
nest at most a constant number of fuelled calls per consumed character,
so `4 * (length + 1)` always suffices. -/
def parseFuel (text : List Char) : Nat := 4 * (text.length + 1)

/-- `protoviewer.parse_proto`, the top-level entry point. -/
def parse_proto (text : List Char) (ii : Nat) (filter_func : Option (String → Bool)) :
    PR Node :=
  parse_proto_aux (parseFuel text) text ii filter_func

/-- `protoviewer.parse_body` at full fuel. -/
def parse_body (text : List Char) (ii : Nat) (filter_func : Option (String → Bool)) :
    PR Node :=
  parse_body_aux (parseFuel text) text ii filter_func

/-- `protoviewer.parse_value` at full fuel. -/
def parse_value (text : List Char) (ii : Nat) (filter_func : Option (String → Bool)) :
    PR Node :=
  parse_value_aux (parseFuel text) text ii filter_func

/-- `protoviewer.parse_list` at full fuel. -/
def parse_list (text : List Char) (ii : Nat) (filter_func : Option (String → Bool)) :
    PR Node :=
  parse_list_aux (parseFuel text) text ii filter_func

/-- `protoviewer.is_object`: true for arrays as well (the source comment
says so explicitly) — only plain strings are non-objects. -/
def is_object : Node → Bool
  | .str _ => false
  | _ => true

/-- `protoviewer.is_array`. -/
def is_array : Node → Bool
  | .arr _ => true
  | _ => false

/-- `protoviewer.is_sub_proto`: an object that is not an array. -/
def is_sub_proto (v : Node) : Bool := is_object v && !is_array v

mutual

/-- Structural size of a node, used as the fuel bound of the
tree-transform wrappers. -/
def Node.size : Node → Nat
  | .str _ => 1
  | .arr xs => 1 + sizeList xs
  | .obj fs => 1 + sizeFields fs

/-- Sum of sizes of a list of nodes. -/
def sizeList : List Node → Nat
  | [] => 0
  | x :: xs => Node.size x + sizeList xs

/-- Sum of sizes of the values of a field list. -/
def sizeFields : List (String × Node) → Nat
  | [] => 0
  | kv :: fs => Node.size kv.2 + sizeFields fs

end

/-- JS `v.length` for the values the transforms index into: a string's
character count, an array's length; a plain object has no `length`
property (undefined), so every `ii < v.length` loop bound fails and the
loops never run — modelled as 0. -/
def jsLen : Node → Nat
  | .str s => s.length
  | .arr xs => xs.length
  | .obj _ => 0

/-- JS `v[ii]` for the same accesses: a character of a string (as a
one-character string), an element of an array; indexing a plain object
never happens because its loop bound `jsLen` is 0 (dummy `""`). -/
def jsIdx : Node → Nat → Node
  | .str s, i =>
    .str (match s.data.get? i with
          | some c => String.singleton c
          | none => "")
  | .arr xs, i => xs.getD i (.str "")
  | .obj _, _ => .str ""

/-- JS `for (var name in v)`: the fields of an object in insertion
order; the indices (as strings) paired with the elements for an array;
the indices paired with the characters for a string. -/
def jsForIn : Node → List (String × Node)
  | .obj fs => fs
  | .arr xs => xs.enum.map (fun p => (toString p.1, p.2))
  | .str s => s.data.enum.map (fun p => (toString p.1, Node.str (String.singleton p.2)))

mutual

/-- JS string coercion (`"" + v`): a string is itself, an array joins
its coerced elements with `,` (Array.prototype.toString), a plain
object becomes "[object Object]". -/
def jsToString : Node → String
  | .str s => s
  | .arr xs => jsToStringList xs
  | .obj _ => "[object Object]"

/-- Comma-joined coercion of an array's elements. -/
def jsToStringList : List Node → String
  | [] => ""
  | [x] => jsToString x
  | x :: xs => jsToString x ++ "," ++ jsToStringList xs

end

/-- `protoviewer.format` (fuelled).  For each field, for each element:
optionally the indent, then the field name; an array element renders as
`: [ e0, e1, … ]` with each entry string-coerced (`str += proto[key][ii][jj]`),
an object element as `name { <recursive body> }`, and anything else as
`: <element>`; separators are newlines (non-flat) or spaces (flat), with
a separator after every field.  (The JS `var num = Number(...)` line has
no effect and is omitted.) -/
def format_aux : Nat → Node → Bool → String → String
  | 0, _, _, _ => ""
  | n + 1, proto, flat, indent =>
    (jsForIn proto).foldl (fun str kv =>
      let str := (List.range (jsLen kv.2)).foldl (fun str ii =>
        let e := jsIdx kv.2 ii
        let str := if !flat then str ++ indent else str
        let str := str ++ kv.1
        let str :=
          match e with
          | .arr _ =>
            let str := str ++ ": [ "
            let str := (List.range (jsLen e)).foldl (fun str jj =>
              let str := str ++ jsToString (jsIdx e jj)
              if jj < jsLen e - 1 then str ++ ", " else str) str
            str ++ " ]"
          | .obj _ =>
            let str := str ++ " \x7b "
            let str := if !flat then str ++ "\n" else str
            let str := str ++ format_aux n e flat (indent ++ "  ")
            let str := if !flat then str ++ indent else str
            str ++ " \x7d"
          | .str s => str ++ ": " ++ s
        if ii < jsLen kv.2 - 1 then
          if !flat then str ++ "\n" else str ++ " "
        else str) str
      if !flat then str ++ "\n" else str ++ " ") ""

/-- `protoviewer.format` with the fuel instantiated (callers that omit
`indent` pass `""`, matching the JS default). -/
def format (proto : Node) (flat : Bool) (indent : String) : String :=
  format_aux (Node.size proto + 1) proto flat indent

/-- `protoviewer.filter_proto` (fuelled): drop every field whose name
satisfies `should_filter_func`; for surviving fields copy the element
array, recursing into elements that are sub-protos (objects that are not
arrays) and passing every other element through unchanged. -/
def filter_proto_aux : Nat → List (String × Node) → (String → Bool) →
    List (String × Node)
  | 0, _, _ => []
  | n + 1, proto, should_filter_func =>
    proto.filterMap (fun kv =>
      if should_filter_func kv.1 then none
      else some (kv.1, Node.arr ((List.range (jsLen kv.2)).map (fun ii =>
        match jsIdx kv.2 ii with
        | .obj fs => Node.obj (filter_proto_aux n fs should_filter_func)
        | e => e))))

/-- `protoviewer.filter_proto` with the fuel instantiated. -/
def filter_proto (proto : List (String × Node)) (should_filter_func : String → Bool) :
    List (String × Node) :=
  filter_proto_aux (sizeFields proto + 1) proto should_filter_func

/-- `protoviewer.proto_slice` (fuelled): for each field, every sub-proto
element is recursed into and its result pushed unconditionally; any
other element is kept when the predicate accepts it; the field itself is
created lazily, so it appears in the result exactly when at least one
element was pushed. -/
def proto_slice_aux : Nat → List (String × Node) → (String → Node → Bool) →
    List (String × Node)
  | 0, _, _ => []
  | n + 1, proto, should_keep_slice_func =>
    proto.filterMap (fun kv =>
      let kept := (List.range (jsLen kv.2)).filterMap (fun ii =>
        match jsIdx kv.2 ii with
        | .obj fs => some (Node.obj (proto_slice_aux n fs should_keep_slice_func))
        | e => if should_keep_slice_func kv.1 e then some e else none)
      if kept.isEmpty then none else some (kv.1, Node.arr kept))

/-- `protoviewer.proto_slice` with the fuel instantiated. -/
def proto_slice (proto : List (String × Node)) (should_keep_slice_func : String → Node → Bool) :
    List (String × Node) :=
  proto_slice_aux (sizeFields proto + 1) proto should_keep_slice_func

/-- One attribute of the tree-info engine: a `leaf_function` computing
the attribute for a leaf from the field name, the index and the value,
and an `aggregator` combining sub-results over a ProtoList (`"list"`)
or over the fields of a ProtoDict (`"map"`).  The JS `attributes`
argument maps attribute names to such pairs; the engine processes each
attribute independently, so the embedding is specialised to the single
attribute each caller (`get_depth_info`, `get_expand_info`) passes. -/
structure AttrSpec (A : Type) where
  leaf_function : String → Nat → Node → A
  aggregator : String → List A → A

/-- The info structure `make_proto_info` builds: per field the
per-position values (a leaf attribute value or a recursive info tree),
the collected `data` and the aggregated `total`; at the node level the
collected field totals and the node's own `total`. -/
inductive InfoTree (A : Type) where
  | mk : List (String × List (A ⊕ InfoTree A) × List A × A) → List A → A → InfoTree A

/-- The per-field entries of an info tree. -/
def InfoTree.values : InfoTree A → List (String × List (A ⊕ InfoTree A) × List A × A)
  | .mk v _ _ => v

/-- The node-level collected data of an info tree. -/
def InfoTree.data : InfoTree A → List A
  | .mk _ d _ => d

/-- The node-level aggregated total of an info tree. -/
def InfoTree.total : InfoTree A → A
  | .mk _ _ t => t

/-- `protoviewer.make_proto_info` (fuelled): for each field, for each
positional element, recurse when the element is an object (`is_object`
is true for arrays too) and use the sub-info's total as that position's
datum, otherwise apply the leaf function; aggregate each field's data
with context `"list"` and the field totals with context `"map"`. -/
def mpi_aux (leaf : String → Nat → Node → A) (agg : String → List A → A) :
    Nat → Node → InfoTree A
  | 0, _ => .mk [] [] (agg "map" [])
  | n + 1, proto =>
    let fieldInfos := (jsForIn proto).map (fun kv =>
      let positions := (List.range (jsLen kv.2)).map (fun ii =>
        let e := jsIdx kv.2 ii
        if is_object e then Sum.inr (mpi_aux leaf agg n e)
        else Sum.inl (leaf kv.1 ii e))
      let data := positions.map (fun p =>
        match p with
        | .inr t => t.total
        | .inl a => a)
      let total := agg "list" data
      (kv.1, positions, data, total))
    let data := fieldInfos.map (fun f => f.2.2.2)
    .mk fieldInfos data (agg "map" data)

/-- `protoviewer.make_proto_info` with the fuel instantiated. -/
def make_proto_info (proto : Node) (attr : AttrSpec A) : InfoTree A :=
  mpi_aux attr.leaf_function attr.aggregator (Node.size proto + 1) proto

/-- The aggregator of the depth attribute: the maximum of the inputs,
each incremented by 1 when aggregating over a ProtoDict (`name ==
"map"`), starting from 0. -/
def depth_aggregator (name : String) (infos : List Nat) : Nat :=
  infos.foldl (fun depth v =>
    let val := if name = "map" then v + 1 else v
    if val > depth then val else depth) 0

/-- `protoviewer.get_depth_info`: the info tree of the depth attribute
(leaves have depth 0). -/
def get_depth_info (proto : Node) : InfoTree Nat :=
  make_proto_info proto ⟨fun _ _ _ => 0, depth_aggregator⟩

/-! ### Statement-level predicates

These predicates are vocabulary for the theorem statements (they embed
no source function): well-formedness of a tree in the sense of the
spec's data model (every field holds an array whose elements are
scalars or objects — no nested bare arrays), scalar-only trees, and the
presence of a field matching a predicate at any depth. -/

mutual

/-- Every field value is an array whose elements are scalars or
(recursively well-formed) objects. -/
def wfTree : List (String × Node) → Bool
  | [] => true
  | (_, v) :: fs => wfFieldVal v && wfTree fs

/-- A field value is an array of well-formed elements. -/
def wfFieldVal : Node → Bool
  | .arr xs => wfElems xs
  | _ => false

/-- Elements are scalars or well-formed objects. -/
def wfElems : List Node → Bool
  | [] => true
  | .str _ :: es => wfElems es
  | .obj fs :: es => wfTree fs && wfElems es
  | .arr _ :: _ => false

end

mutual

/-- Some field whose name satisfies `p` occurs somewhere in the tree
(at any depth, looking through arrays and objects alike). -/
def bannedTree (p : String → Bool) : List (String × Node) → Bool
  | [] => false
  | (k, v) :: fs => p k || bannedVal p v || bannedTree p fs

/-- A banned field occurs somewhere inside a value. -/
def bannedVal (p : String → Bool) : Node → Bool
  | .str _ => false
  | .arr xs => bannedElems p xs
  | .obj fs => bannedTree p fs

/-- A banned field occurs somewhere inside one of the elements. -/
def bannedElems (p : String → Bool) : List Node → Bool
  | [] => false
  | e :: es => bannedVal p e || bannedElems p es

end

/-- All elements are scalars. -/
def scalarElems : List Node → Bool
  | [] => true
  | .str _ :: es => scalarElems es
  | _ :: _ => false

/-- Every field holds an array of scalars. -/
def scalarFields : List (String × Node) → Bool
  | [] => true
  | (_, .arr xs) :: fs => scalarElems xs && scalarFields fs
  | _ :: _ => false

/-! ### Size and indexing lemmas -/

theorem size_pos : ∀ v : Node, 0 < Node.size v
  | .str _ => by simp [Node.size]
  | .arr _ => by simp [Node.size]
  | .obj _ => by simp [Node.size]

theorem size_le_sizeList {e : Node} : ∀ {xs : List Node}, e ∈ xs → Node.size e ≤ sizeList xs := by
  intro xs h
  induction xs with
  | nil => cases h
  | cons x rest ih =>
    rcases List.mem_cons.mp h with h | h
    · subst h; simp [sizeList]
    · calc Node.size e ≤ sizeList rest := ih h
        _ ≤ _ := by simp [sizeList]

theorem size_le_sizeFields {kv : String × Node} :
    ∀ {t : List (String × Node)}, kv ∈ t → Node.size kv.2 ≤ sizeFields t := by
  intro t h
  induction t with
  | nil => cases h
  | cons x rest ih =>
    rcases List.mem_cons.mp h with h | h
    · subst h; simp [sizeFields]
    · calc Node.size kv.2 ≤ sizeFields rest := ih h
        _ ≤ _ := by simp [sizeFields]

theorem size_jsIdx_le (v : Node) (i : Nat) : Node.size (jsIdx v i) ≤ Node.size v := by
  cases v with
  | str s => cases h : s.data.get? i <;> simp [jsIdx, h, Node.size]
  | obj fs =>
    simp only [jsIdx, Node.size]
    omega
  | arr xs =>
    simp only [jsIdx, Node.size]
    by_cases h : i < xs.length
    · have hmem : xs.getD i (.str "") ∈ xs := by
        rw [List.getD_eq_getElem?_getD, List.getElem?_eq_getElem h]
        exact List.getElem_mem h
      have := size_le_sizeList hmem
      omega
    · rw [List.getD_eq_getElem?_getD, List.getElem?_eq_none (by omega)]
      simp [Node.size]

/-- Mapping an index-based access over `range` is mapping over the list
itself. -/
theorem map_range_getD (xs : List Node) (d : Node) (f : Node → α) :
    (List.range xs.length).map (fun i => f (xs.getD i d)) = xs.map f := by
  induction xs with
  | nil => rfl
  | cons x rest ih =>
    rw [List.length_cons, List.range_succ_eq_map, List.map_cons, List.map_map]
    simp only [List.getD_cons_zero, Function.comp, List.getD_cons_succ]
    rw [List.map_cons]
    exact congrArg (f x :: ·) ih

/-- The `filterMap` analogue of `map_range_getD`. -/
theorem filterMap_range_getD (xs : List Node) (d : Node) (f : Node → Option α) :
    (List.range xs.length).filterMap (fun i => f (xs.getD i d)) = xs.filterMap f := by
  induction xs with
  | nil => rfl
  | cons x rest ih =>
    rw [List.length_cons, List.range_succ_eq_map, List.filterMap_cons, List.filterMap_map,
      List.filterMap_cons]
    simp only [List.getD_cons_zero]
    have hcomp : ((fun i => f ((x :: rest).getD i d)) ∘ Nat.succ) =
        (fun i => f (rest.getD i d)) := by
      funext i
      simp [Function.comp, List.getD_cons_succ]
    rw [hcomp, ih]

/-- Pointwise-equal functions give equal `filterMap`s. -/
theorem pvFilterMapCongr {l : List α} {f g : α → Option β}
    (h : ∀ a ∈ l, f a = g a) : l.filterMap f = l.filterMap g := by
  induction l with
  | nil => rfl
  | cons x rest ih =>
    rw [List.filterMap_cons, List.filterMap_cons, h x (List.mem_cons_self x rest),
      ih (fun a ha => h a (List.mem_cons_of_mem x ha))]

/-- Pointwise-equal functions give equal `map`s. -/
theorem pvMapCongr {l : List α} {f g : α → β}
    (h : ∀ a ∈ l, f a = g a) : l.map f = l.map g := by
  induction l with
  | nil => rfl
  | cons x rest ih =>
    rw [List.map_cons, List.map_cons, h x (List.mem_cons_self x rest),
      ih (fun a ha => h a (List.mem_cons_of_mem x ha))]

/-! ### Fuel stability and unfolding for the tree transforms -/

theorem filter_aux_stable : ∀ (n m : Nat) (t : List (String × Node)) (p : String → Bool),
    sizeFields t < n → sizeFields t < m →
    filter_proto_aux n t p = filter_proto_aux m t p := by
  intro n
  induction n using Nat.strong_induction_on with
  | _ n ih =>
    intro m t p hn hm
    cases n with
    | zero => omega
    | succ n' =>
      cases m with
      | zero => omega
      | succ m' =>
        simp only [filter_proto_aux]
        apply pvFilterMapCongr
        intro kv hkv
        cases hpkv : p kv.1 with
        | true => simp [hpkv]
        | false =>
          simp only [hpkv, Bool.false_eq_true, if_false]
          refine congrArg (fun l => some (kv.1, Node.arr l)) ?_
          apply pvMapCongr
          intro ii hii
          cases hjs : jsIdx kv.2 ii with
          | str s => rfl
          | arr xs => rfl
          | obj fs =>
            refine congrArg Node.obj ?_
            have h1 : Node.size (jsIdx kv.2 ii) ≤ Node.size kv.2 := size_jsIdx_le _ _
            rw [hjs] at h1
            have h2 : Node.size kv.2 ≤ sizeFields t := size_le_sizeFields hkv
            have h3 : sizeFields fs < Node.size (Node.obj fs) := by
              simp only [Node.size]; omega
            exact ih n' (by omega) m' fs p (by omega) (by omega)

/-- The canonical unfolding of `filter_proto`: one field-level step with
the recursion expressed through `filter_proto` itself. -/
theorem filter_proto_unfold (t : List (String × Node)) (p : String → Bool) :
    filter_proto t p = t.filterMap (fun kv =>
      if p kv.1 then none
      else some (kv.1, Node.arr ((List.range (jsLen kv.2)).map (fun ii =>
        match jsIdx kv.2 ii with
        | .obj fs => Node.obj (filter_proto fs p)
        | e => e)))) := by
  show filter_proto_aux (sizeFields t + 1) t p = _
  simp only [filter_proto_aux]
  apply pvFilterMapCongr
  intro kv hkv
  cases hpkv : p kv.1 with
  | true => simp [hpkv]
  | false =>
    simp only [hpkv, Bool.false_eq_true, if_false]
    refine congrArg (fun l => some (kv.1, Node.arr l)) ?_
    apply pvMapCongr
    intro ii hii
    cases hjs : jsIdx kv.2 ii with
    | str s => rfl
    | arr xs => rfl
    | obj fs =>
      refine congrArg Node.obj ?_
      have h1 : Node.size (jsIdx kv.2 ii) ≤ Node.size kv.2 := size_jsIdx_le _ _
      rw [hjs] at h1
      have h2 : Node.size kv.2 ≤ sizeFields t := size_le_sizeFields hkv
      have h3 : sizeFields fs < Node.size (Node.obj fs) := by
        simp only [Node.size]; omega
      exact filter_aux_stable (sizeFields t) (sizeFields fs + 1) fs p (by omega) (by omega)

theorem slice_aux_stable : ∀ (n m : Nat) (t : List (String × Node)) (p : String → Node → Bool),
    sizeFields t < n → sizeFields t < m →
    proto_slice_aux n t p = proto_slice_aux m t p := by
  intro n
  induction n using Nat.strong_induction_on with
  | _ n ih =>
    intro m t p hn hm
    cases n with
    | zero => omega
    | succ n' =>
      cases m with
      | zero => omega
      | succ m' =>
        simp only [proto_slice_aux]
        apply pvFilterMapCongr
        intro kv hkv
        have hkept : ((List.range (jsLen kv.2)).filterMap (fun ii =>
            match jsIdx kv.2 ii with
            | .obj fs => some (Node.obj (proto_slice_aux n' fs p))
            | e => if p kv.1 e then some e else none)) =
            ((List.range (jsLen kv.2)).filterMap (fun ii =>
            match jsIdx kv.2 ii with
            | .obj fs => some (Node.obj (proto_slice_aux m' fs p))
            | e => if p kv.1 e then some e else none)) := by
          apply pvFilterMapCongr
          intro ii hii
          cases hjs : jsIdx kv.2 ii with
          | str s => rfl
          | arr xs => rfl
          | obj fs =>
            refine congrArg (fun t => some (Node.obj t)) ?_
            have h1 : Node.size (jsIdx kv.2 ii) ≤ Node.size kv.2 := size_jsIdx_le _ _
            rw [hjs] at h1
            have h2 : Node.size kv.2 ≤ sizeFields t := size_le_sizeFields hkv
            have h3 : sizeFields fs < Node.size (Node.obj fs) := by
              simp only [Node.size]; omega
            exact ih n' (by omega) m' fs p (by omega) (by omega)
        rw [hkept]

/-- The canonical unfolding of `proto_slice`: one field-level step with
the recursion expressed through `proto_slice` itself. -/
theorem proto_slice_unfold (t : List (String × Node)) (p : String → Node → Bool) :
    proto_slice t p = t.filterMap (fun kv =>
      if ((List.range (jsLen kv.2)).filterMap (fun ii =>
            match jsIdx kv.2 ii with
            | .obj fs => some (Node.obj (proto_slice fs p))
            | e => if p kv.1 e then some e else none)).isEmpty then none
      else some (kv.1, Node.arr ((List.range (jsLen kv.2)).filterMap (fun ii =>
            match jsIdx kv.2 ii with
            | .obj fs => some (Node.obj (proto_slice fs p))
            | e => if p kv.1 e then some e else none)))) := by
  show proto_slice_aux (sizeFields t + 1) t p = _
  simp only [proto_slice_aux]
  apply pvFilterMapCongr
  intro kv hkv
  have hkept : ((List.range (jsLen kv.2)).filterMap (fun ii =>
      match jsIdx kv.2 ii with
      | .obj fs => some (Node.obj (proto_slice_aux (sizeFields t) fs p))
      | e => if p kv.1 e then some e else none)) =
      ((List.range (jsLen kv.2)).filterMap (fun ii =>
      match jsIdx kv.2 ii with
      | .obj fs => some (Node.obj (proto_slice fs p))
      | e => if p kv.1 e then some e else none)) := by
    apply pvFilterMapCongr
    intro ii hii
    cases hjs : jsIdx kv.2 ii with
    | str s => rfl
    | arr xs => rfl
    | obj fs =>
      refine congrArg (fun t => some (Node.obj t)) ?_
      have h1 : Node.size (jsIdx kv.2 ii) ≤ Node.size kv.2 := size_jsIdx_le _ _
      rw [hjs] at h1
      have h2 : Node.size kv.2 ≤ sizeFields t := size_le_sizeFields hkv
      have h3 : sizeFields fs < Node.size (Node.obj fs) := by
        simp only [Node.size]; omega
      exact slice_aux_stable (sizeFields t) (sizeFields fs + 1) fs p (by omega) (by omega)
  rw [hkept]

/-! ### Filtering drops every banned field (on well-formed trees) -/

theorem wfFieldVal_arr {v : Node} (h : wfFieldVal v = true) :
    ∃ xs, v = Node.arr xs ∧ wfElems xs = true := by
  cases v with
  | arr xs => exact ⟨xs, rfl, by simpa [wfFieldVal] using h⟩
  | str s => simp [wfFieldVal] at h
  | obj fs => simp [wfFieldVal] at h

theorem banned_elems_filter_map (n : Nat) (p : String → Bool)
    (ih : ∀ t p', wfTree t = true → bannedTree p' (filter_proto_aux n t p') = false) :
    ∀ xs : List Node, wfElems xs = true →
    bannedElems p (xs.map (fun e =>
      match e with
      | Node.obj fs => Node.obj (filter_proto_aux n fs p)
      | e => e)) = false := by
  intro xs
  induction xs with
  | nil => intro _; rfl
  | cons x rest ihx =>
    intro hwf
    cases x with
    | str s =>
      simp only [wfElems] at hwf
      simp only [List.map_cons, bannedElems, bannedVal, Bool.false_or]
      exact ihx hwf
    | arr ys => simp [wfElems] at hwf
    | obj fs =>
      simp only [wfElems, Bool.and_eq_true] at hwf
      simp only [List.map_cons, bannedElems, bannedVal, Bool.or_eq_false_iff]
      exact ⟨ih fs p hwf.1, ihx hwf.2⟩

theorem filter_aux_no_banned : ∀ (n : Nat) (t : List (String × Node)) (p : String → Bool),
    wfTree t = true → bannedTree p (filter_proto_aux n t p) = false := by
  intro n
  induction n with
  | zero => intro t p _; rfl
  | succ n ih =>
    intro t p
    simp only [filter_proto_aux]
    induction t with
    | nil => intro _; rfl
    | cons kv rest iht =>
      intro hwf
      obtain ⟨k, v⟩ := kv
      simp only [wfTree, Bool.and_eq_true] at hwf
      rw [List.filterMap_cons]
      cases hpk : p k with
      | true => simpa [hpk] using iht hwf.2
      | false =>
        obtain ⟨xs, rfl, hxs⟩ := wfFieldVal_arr hwf.1
        simp only [hpk, Bool.false_eq_true, if_false]
        have hmap : ((List.range (jsLen (Node.arr xs))).map (fun ii =>
            match jsIdx (Node.arr xs) ii with
            | Node.obj fs => Node.obj (filter_proto_aux n fs p)
            | e => e)) = xs.map (fun e =>
            match e with
            | Node.obj fs => Node.obj (filter_proto_aux n fs p)
            | e => e) := by
          simp only [jsLen, jsIdx]
          exact map_range_getD xs (Node.str "") (fun e =>
            match e with
            | Node.obj fs => Node.obj (filter_proto_aux n fs p)
            | e => e)
        rw [hmap]
        simp only [bannedTree, bannedVal, Bool.or_eq_false_iff]
        refine ⟨⟨by rw [hpk], ?_⟩, iht hwf.2⟩
        exact banned_elems_filter_map n p (fun t' p' h => ih t' p' h) xs hxs

/-- On a well-formed tree, the result of `filter_proto` contains no
banned field at any depth. -/
theorem filter_proto_no_banned (t : List (String × Node)) (p : String → Bool)
    (hwf : wfTree t = true) : bannedTree p (filter_proto t p) = false :=
  filter_aux_no_banned _ t p hwf

/-- `filter_proto` keeps exactly the non-banned field names, in order. -/
theorem filter_proto_keys (t : List (String × Node)) (p : String → Bool) :
    (filter_proto t p).map Prod.fst = (t.map Prod.fst).filter (fun k => !(p k)) := by
  rw [filter_proto_unfold]
  induction t with
  | nil => rfl
  | cons kv rest ih =>
    rw [List.filterMap_cons, List.map_cons, List.filter_cons]
    cases hpk : p kv.1 with
    | true => simpa [hpk] using ih
    | false => simpa [hpk] using ih

/-- A surviving field keeps its elements: scalars (and arrays)
unchanged, objects recursively filtered. -/
theorem filter_proto_content (t : List (String × Node)) (p : String → Bool)
    (k : String) (xs : List Node) (hmem : (k, Node.arr xs) ∈ t) (hpk : p k = false) :
    (k, Node.arr (xs.map (fun e =>
      match e with
      | Node.obj fs => Node.obj (filter_proto fs p)
      | e => e))) ∈ filter_proto t p := by
  rw [filter_proto_unfold]
  apply List.mem_filterMap.mpr
  refine ⟨(k, Node.arr xs), hmem, ?_⟩
  simp only [hpk, Bool.false_eq_true, if_false, jsLen, jsIdx]
  exact congrArg (fun l => some (k, Node.arr l))
    (map_range_getD xs (Node.str "") (fun e =>
      match e with
      | Node.obj fs => Node.obj (filter_proto fs p)
      | e => e))

/-! ### Slice field characterization -/

theorem nodup_fst_eq {k : String} {v w : Node} :
    ∀ {t : List (String × Node)}, (t.map Prod.fst).Nodup →
    (k, v) ∈ t → (k, w) ∈ t → v = w := by
  intro t
  induction t with
  | nil => intro _ h1 _; cases h1
  | cons a rest ih =>
    intro h h1 h2
    rw [List.map_cons, List.nodup_cons] at h
    rcases List.mem_cons.mp h1 with e1 | m1
    · rcases List.mem_cons.mp h2 with e2 | m2
      · have := e1.trans e2.symm
        exact congrArg Prod.snd this
      · exfalso
        apply h.1
        rw [← e1]
        exact List.mem_map.mpr ⟨(k, w), m2, rfl⟩
    · rcases List.mem_cons.mp h2 with e2 | m2
      · exfalso
        apply h.1
        rw [← e2]
        exact List.mem_map.mpr ⟨(k, v), m1, rfl⟩
      · exact ih h.2 m1 m2

/-- The elements `proto_slice` keeps for one field: every object
element always (recursively sliced), every other element exactly when
the predicate accepts it. -/
def sliceKept (p : String → Node → Bool) (k : String) (xs : List Node) : List Node :=
  xs.filterMap (fun e =>
    match e with
    | Node.obj fs => some (Node.obj (proto_slice fs p))
    | e => if p k e then some e else none)

theorem slice_inner_eq (p : String → Node → Bool) (k : String) (xs : List Node) :
    ((List.range (jsLen (Node.arr xs))).filterMap (fun ii =>
      match jsIdx (Node.arr xs) ii with
      | Node.obj fs => some (Node.obj (proto_slice fs p))
      | e => if p k e then some e else none)) = sliceKept p k xs := by
  simp only [jsLen, jsIdx, sliceKept]
  exact filterMap_range_getD xs (Node.str "") (fun e =>
    match e with
    | Node.obj fs => some (Node.obj (proto_slice fs p))
    | e => if p k e then some e else none)

/-- A field whose kept-element list is non-empty appears in the sliced
tree with exactly those elements. -/
theorem proto_slice_mem (t : List (String × Node)) (p : String → Node → Bool)
    (k : String) (xs : List Node) (hmem : (k, Node.arr xs) ∈ t)
    (hne : sliceKept p k xs ≠ []) :
    (k, Node.arr (sliceKept p k xs)) ∈ proto_slice t p := by
  rw [proto_slice_unfold]
  apply List.mem_filterMap.mpr
  refine ⟨(k, Node.arr xs), hmem, ?_⟩
  simp only [slice_inner_eq]
  rw [if_neg (by simpa [List.isEmpty_iff] using hne)]

/-- A field (of a tree with distinct field names) whose kept-element
list is empty is entirely absent from the sliced tree. -/
theorem proto_slice_not_mem (t : List (String × Node)) (p : String → Node → Bool)
    (k : String) (xs : List Node) (hmem : (k, Node.arr xs) ∈ t)
    (hnd : (t.map Prod.fst).Nodup) (hemp : sliceKept p k xs = []) :
    ∀ w, (k, w) ∉ proto_slice t p := by
  intro w hw
  rw [proto_slice_unfold] at hw
  obtain ⟨⟨k', v'⟩, hmem', heq⟩ := List.mem_filterMap.mp hw
  simp only at heq
  by_cases hkept : ((List.range (jsLen v')).filterMap (fun ii =>
      match jsIdx v' ii with
      | Node.obj fs => some (Node.obj (proto_slice fs p))
      | e => if p k' e then some e else none)).isEmpty = true
  · rw [if_pos hkept] at heq
    cases heq
  · rw [if_neg hkept] at heq
    have hpair := Option.some.inj heq
    have hk : k' = k := congrArg Prod.fst hpair
    subst hk
    have hv' : v' = Node.arr xs := nodup_fst_eq hnd hmem' hmem
    subst hv'
    rw [slice_inner_eq, hemp] at hkept
    exact hkept rfl

/-! ### Depth attribute lemmas -/

theorem scalarFields_mem : ∀ {t : List (String × Node)}, scalarFields t = true →
    ∀ {kv : String × Node}, kv ∈ t → ∃ xs, kv.2 = Node.arr xs ∧ scalarElems xs = true := by
  intro t
  induction t with
  | nil => intro _ kv h; cases h
  | cons a rest ih =>
    intro hsc kv hm
    obtain ⟨k, v⟩ := a
    cases v with
    | str s => simp [scalarFields] at hsc
    | obj fs => simp [scalarFields] at hsc
    | arr xs =>
      simp only [scalarFields, Bool.and_eq_true] at hsc
      rcases List.mem_cons.mp hm with e | m
      · exact ⟨xs, congrArg Prod.snd e, hsc.1⟩
      · exact ih hsc.2 m

theorem scalarElems_mem : ∀ {xs : List Node}, scalarElems xs = true →
    ∀ {e : Node}, e ∈ xs → ∃ s, e = Node.str s := by
  intro xs
  induction xs with
  | nil => intro _ e h; cases h
  | cons x rest ih =>
    intro hsc e hm
    cases x with
    | arr ys => simp [scalarElems] at hsc
    | obj fs => simp [scalarElems] at hsc
    | str s =>
      simp only [scalarElems] at hsc
      rcases List.mem_cons.mp hm with rfl | m
      · exact ⟨s, rfl⟩
      · exact ih hsc m

theorem depth_agg_list_zeros : ∀ (l : List Nat), (∀ a ∈ l, a = 0) →
    depth_aggregator "list" l = 0 := by
  have key : ∀ (l : List Nat) (acc : Nat), (∀ a ∈ l, a = 0) →
      l.foldl (fun depth v =>
        let val := if ("list" : String) = "map" then v + 1 else v
        if val > depth then val else depth) acc = acc := by
    intro l
    induction l with
    | nil => intro acc _; rfl
    | cons x rest ih =>
      intro acc h
      have hx : x = 0 := h x (List.mem_cons_self x rest)
      rw [List.foldl_cons]
      have hstep : (let val := if ("list" : String) = "map" then x + 1 else x
          if val > acc then val else acc) = acc := by
        subst hx
        simp
      rw [hstep]
      exact ih acc (fun a ha => h a (List.mem_cons_of_mem _ ha))
  intro l h
  exact key l 0 h

theorem depth_agg_map_zeros : ∀ (l : List Nat), l ≠ [] → (∀ a ∈ l, a = 0) →
    depth_aggregator "map" l = 1 := by
  have key : ∀ (l : List Nat), (∀ a ∈ l, a = 0) →
      l.foldl (fun depth v =>
        let val := if ("map" : String) = "map" then v + 1 else v
        if val > depth then val else depth) 1 = 1 := by
    intro l
    induction l with
    | nil => intro _; rfl
    | cons x rest ih =>
      intro h
      have hx : x = 0 := h x (List.mem_cons_self x rest)
      rw [List.foldl_cons]
      have hstep : (let val := if ("map" : String) = "map" then x + 1 else x
          if val > 1 then val else 1) = 1 := by
        subst hx
        simp
      rw [hstep]
      exact ih (fun a ha => h a (List.mem_cons_of_mem _ ha))
  intro l hne h
  cases l with
  | nil => exact absurd rfl hne
  | cons x rest =>
    have hx : x = 0 := h x (List.mem_cons_self x rest)
    show List.foldl _ _ (x :: rest) = 1
    rw [List.foldl_cons]
    have hstep : (let val := if ("map" : String) = "map" then x + 1 else x
        if val > 0 then val else 0) = 1 := by
      subst hx
      simp
    rw [hstep]
    exact key rest (fun a ha => h a (List.mem_cons_of_mem _ ha))

/-- One-step unfolding of the node total computed by `mpi_aux`. -/
theorem mpi_total_eq (leaf : String → Nat → Node → A) (agg : String → List A → A)
    (n : Nat) (proto : Node) :
    (mpi_aux leaf agg (n + 1) proto).total =
      agg "map" ((jsForIn proto).map (fun kv =>
        agg "list" ((List.range (jsLen kv.2)).map (fun ii =>
          if is_object (jsIdx kv.2 ii) then (mpi_aux leaf agg n (jsIdx kv.2 ii)).total
          else leaf kv.1 ii (jsIdx kv.2 ii))))) := by
  conv_lhs => rw [mpi_aux]
  simp only [InfoTree.total, List.map_map]
  apply congrArg (agg "map")
  apply pvMapCongr
  intro kv _
  simp only [Function.comp]
  apply congrArg (agg "list")
  apply pvMapCongr
  intro ii _
  by_cases hc : is_object (jsIdx kv.2 ii) = true
  · simp [hc, InfoTree.total]
  · simp [hc]

/-- The node total of the depth info of a non-empty all-scalar tree is
1: every position's leaf datum is 0, every field's `"list"` total is 0,
and the `"map"` aggregation of the field totals increments to 1. -/
theorem mpi_scalar_total (n : Nat) (fields : List (String × Node))
    (hne : fields ≠ []) (hsc : scalarFields fields = true) :
    (mpi_aux (fun _ _ _ => (0 : Nat)) depth_aggregator (n + 1) (Node.obj fields)).total = 1 := by
  rw [mpi_total_eq]
  simp only [jsForIn]
  apply depth_agg_map_zeros
  · simpa using hne
  · intro a ha
    obtain ⟨kv, hkv, rfl⟩ := List.mem_map.mp ha
    obtain ⟨xs, hv, hxe⟩ := scalarFields_mem hsc hkv
    apply depth_agg_list_zeros
    intro b hb
    obtain ⟨ii, hii, rfl⟩ := List.mem_map.mp hb
    have hiilt : ii < jsLen kv.2 := List.mem_range.mp hii
    have hmem : jsIdx kv.2 ii ∈ xs := by
      rw [hv] at hiilt ⊢
      simp only [jsIdx]
      simp only [jsLen] at hiilt
      rw [List.getD_eq_getElem?_getD, List.getElem?_eq_getElem hiilt]
      exact List.getElem_mem hiilt
    obtain ⟨s, hs⟩ := scalarElems_mem hxe hmem
    rw [hs]
    simp [is_object]

/-- The node total of the depth info of a tree with a single field
holding a single object element that is itself a non-empty all-scalar
tree is 2. -/
theorem mpi_nested_total (n : Nat) (k : String) (gf : List (String × Node))
    (hne : gf ≠ []) (hsc : scalarFields gf = true) :
    (mpi_aux (fun _ _ _ => (0 : Nat)) depth_aggregator (n + 2)
      (Node.obj [(k, Node.arr [Node.obj gf])])).total = 2 := by
  rw [mpi_total_eq]
  have hinner := mpi_scalar_total n gf hne hsc
  simp only [jsForIn, jsLen, jsIdx, List.length_cons, List.length_nil, List.range_succ,
    List.range_zero, List.nil_append, List.map_cons, List.map_nil, List.getD_cons_zero,
    is_object, if_true]
  rw [hinner]
  decide

/-! ### Parser lemmas -/

theorem ps_scan_found (q : Char) : ∀ (rest : List Char) (esc : Bool),
    (ps_scan q rest esc).2.2 = true → ∃ pre, (ps_scan q rest esc).1 = pre ++ [q] := by
  intro rest
  induction rest with
  | nil => intro esc h; simp [ps_scan] at h
  | cons c rest ih =>
    intro esc h
    by_cases hc : (!esc && (decide (c = q))) = true
    · have hand := (Bool.and_eq_true _ _).mp hc
      have hcq : c = q := of_decide_eq_true hand.2
      have hesc : esc = false := by
        have hne := hand.1
        cases esc
        · rfl
        · simp at hne
      refine ⟨[], ?_⟩
      simp [ps_scan, hcq, hesc]
    · simp only [ps_scan, hc, Bool.false_eq_true, if_false] at h ⊢
      obtain ⟨pre, hpre⟩ := ih _ h
      exact ⟨c :: pre, by rw [List.cons_append, hpre]⟩

theorem ps_scan_not_found (q : Char) : ∀ (rest : List Char) (esc : Bool),
    (ps_scan q rest esc).2.2 = false → (ps_scan q rest esc).2.1 = rest.length := by
  intro rest
  induction rest with
  | nil => intro esc _; rfl
  | cons c rest ih =>
    intro esc h
    by_cases hc : (!esc && (decide (c = q))) = true
    · simp [ps_scan, hc] at h
    · simp only [ps_scan, hc, Bool.false_eq_true, if_false] at h ⊢
      rw [List.length_cons, ih _ h]

/-- Whenever `parse_string` succeeds, its value is the quoted text
including both surrounding quote characters (the scanned characters,
escapes retained verbatim, are between them). -/
theorem parse_string_success (text : List Char) (ii : Nat)
    (h : (parse_string text ii).error = none) :
    ∃ q pre, text.get? ii = some q ∧ (q = squote ∨ q = '"') ∧
      (parse_string text ii).value.data = q :: (pre ++ [q]) := by
  cases hq : text.get? ii with
  | none =>
    rw [List.get?_eq_getElem?] at hq
    simp [parse_string, hq] at h
  | some q =>
    by_cases hquote : q = squote ∨ q = '"'
    · cases hfound : (ps_scan q (text.drop (ii + 1)) false).2.2 with
      | false =>
        exfalso
        have hd := ps_scan_not_found q (text.drop (ii + 1)) false hfound
        have hii : ii < text.length := by
          by_contra hle
          rw [List.get?_eq_none.mpr (by omega)] at hq
          cases hq
        have hjj : ii + 1 + (ps_scan q (text.drop (ii + 1)) false).2.1 ≥ text.length := by
          rw [hd, List.length_drop]
          omega
        simp only [parse_string, hq, if_pos hquote, if_pos hjj] at h
        exact Option.noConfusion h
      | true =>
        obtain ⟨pre, hpre⟩ := ps_scan_found q _ false hfound
        refine ⟨q, pre, rfl, hquote, ?_⟩
        simp only [parse_string, hq, if_pos hquote]
        by_cases hend : ii + 1 + (ps_scan q (text.drop (ii + 1)) false).2.1 ≥ text.length
        · rw [if_pos hend]
          show q :: (ps_scan q (text.drop (ii + 1)) false).1 = q :: (pre ++ [q])
          rw [hpre]
        · rw [if_neg hend]
          by_cases hterm : text.get? (ii + 1 + (ps_scan q (text.drop (ii + 1)) false).2.1) = some q
          · rw [if_pos hterm]
            show q :: (ps_scan q (text.drop (ii + 1)) false).1 = q :: (pre ++ [q])
            rw [hpre]
          · rw [if_neg hterm]
            show q :: (ps_scan q (text.drop (ii + 1)) false).1 = q :: (pre ++ [q])
            rw [hpre]
    · simp only [parse_string, hq, if_neg hquote] at h
      exact Option.noConfusion h

/-! ### `add_field` appends, never overwrites -/

theorem add_field_absent (t : List (String × Node)) (name : String) (v : Node)
    (h : (t.map Prod.fst).contains name = false) :
    add_field t name v = t ++ [(name, Node.arr [v])] := by
  have hnc : ¬ (((t.map Prod.fst).contains name) = true) := by
    rw [h]
    exact Bool.false_ne_true
  rw [add_field, if_neg hnc]

theorem contains_of_mem_fst {t : List (String × Node)} {name : String} {v : Node}
    (h : (name, v) ∈ t) : (t.map Prod.fst).contains name = true := by
  induction t with
  | nil => cases h
  | cons a rest ih =>
    rw [List.map_cons, List.contains_cons]
    rcases List.mem_cons.mp h with rfl | hm
    · simp
    · rw [ih hm]
      simp

/-- `List.lookup` on a cons cell, in if-then-else form. -/
theorem lookup_cons_pv (m : String) (x : String × Node) (es : List (String × Node)) :
    List.lookup m (x :: es) = if (m == x.1) = true then some x.2 else List.lookup m es := by
  obtain ⟨k, b⟩ := x
  show (match m == k with
    | true => some b
    | false => List.lookup m es) = _
  cases m == k
  · simp
  · simp

theorem lookup_map_update_self (name : String) (v : Node) (xs : List Node) :
    ∀ (t : List (String × Node)), (t.map Prod.fst).Nodup → (name, Node.arr xs) ∈ t →
    List.lookup name (t.map (fun kv => if kv.1 = name then (kv.1, pushElem kv.2 v) else kv))
      = some (Node.arr (xs ++ [v])) := by
  intro t
  induction t with
  | nil => intro _ hm; cases hm
  | cons a rest ih =>
    intro hnd hm
    rw [List.map_cons, List.nodup_cons] at hnd
    rw [List.map_cons, lookup_cons_pv]
    rcases List.mem_cons.mp hm with heq | hm'
    · subst heq
      have hhead : (if ((name : String), Node.arr xs).1 = name
          then (((name : String), Node.arr xs).1, pushElem ((name : String), Node.arr xs).2 v)
          else ((name : String), Node.arr xs)) = (name, Node.arr (xs ++ [v])) := by
        simp [pushElem]
      rw [hhead]
      simp
    · have hnamem : name ∈ rest.map Prod.fst :=
        List.mem_map.mpr ⟨(name, Node.arr xs), hm', rfl⟩
      have hne : a.1 ≠ name := fun he => hnd.1 (he ▸ hnamem)
      have hhead : (if a.1 = name then (a.1, pushElem a.2 v) else a) = a := if_neg hne
      rw [hhead, if_neg (by simp [Ne.symm hne])]
      exact ih hnd.2 hm'

theorem lookup_add_field_self (t : List (String × Node)) (name : String) (v : Node)
    (xs : List Node) (hnd : (t.map Prod.fst).Nodup) (hmem : (name, Node.arr xs) ∈ t) :
    List.lookup name (add_field t name v) = some (Node.arr (xs ++ [v])) := by
  rw [add_field, if_pos (contains_of_mem_fst hmem)]
  exact lookup_map_update_self name v xs t hnd hmem

theorem lookup_add_field_other (t : List (String × Node)) (name m : String) (v : Node)
    (hne : m ≠ name) : List.lookup m (add_field t name v) = List.lookup m t := by
  rw [add_field]
  by_cases hc : ((t.map Prod.fst).contains name) = true
  · rw [if_pos hc]
    clear hc
    induction t with
    | nil => rfl
    | cons a rest ih =>
      rw [List.map_cons, lookup_cons_pv, lookup_cons_pv]
      by_cases ha : a.1 = name
      · have hhead : (if a.1 = name then (a.1, pushElem a.2 v) else a) = (a.1, pushElem a.2 v) :=
          if_pos ha
        rw [hhead]
        have hbeq : (m == a.1) = false := beq_eq_false_iff_ne.mpr (fun he => hne (he.trans ha))
        rw [if_neg (by simp [hbeq]), if_neg (by simp [hbeq])]
        exact ih
      · have hhead : (if a.1 = name then (a.1, pushElem a.2 v) else a) = a := if_neg ha
        rw [hhead]
        cases hbeq : (m == a.1) with
        | true => simp
        | false =>
          rw [if_neg (by simp [hbeq]), if_neg (by simp [hbeq])]
          exact ih
  · rw [if_neg hc]
    clear hc
    induction t with
    | nil =>
      rw [List.nil_append, lookup_cons_pv,
        if_neg (by simp [beq_eq_false_iff_ne.mpr hne])]
    | cons a rest ih =>
      rw [List.cons_append, lookup_cons_pv, lookup_cons_pv]
      cases hbeq : (m == a.1) with
      | true => simp
      | false =>
        rw [if_neg (by simp [hbeq]), if_neg (by simp [hbeq])]
        exact ih

theorem add_field_keys_present (t : List (String × Node)) (name : String) (v : Node)
    (hc : ((t.map Prod.fst).contains name) = true) :
    (add_field t name v).map Prod.fst = t.map Prod.fst := by
  rw [add_field, if_pos hc, List.map_map]
  apply pvMapCongr
  intro kv _
  by_cases h : kv.1 = name <;> simp [h, Function.comp]

/-! ### `parse_body` keeps the failing field -/

/-- One iteration of the body loop in which the name parses, the value
parse fails, and the filter (if any) does not exclude the field: the
partially parsed value is appended to the field's sequence **before**
the loop stops, and the value's error is propagated. -/
theorem parse_body_loop_keeps_failing_field (n : Nat) (text : List Char) (ii : Nat)
    (filter_func : Option (String → Bool)) (acc : List (String × Node))
    (nm : String) (npos : Nat) (v : Node) (vpos : Nat) (err : String)
    (ii1 ii2 ii3 ii4 : Nat)
    (h1 : ii < text.length) (h2 : text.get? ii ≠ some '}')
    (hii1 : ii1 = consume_comments text ii)
    (hname : parse_token text ii1 true = ⟨nm, npos, none⟩)
    (hii2 : ii2 = consume_comments text npos)
    (hii3 : ii3 = if text.get? ii2 = some ':' then ii2 + 1 else ii2)
    (hii4 : ii4 = consume_comments text ii3)
    (hval : parse_value_aux n text ii4 filter_func = ⟨v, vpos, some err⟩)
    (hkeep : ∀ f, filter_func = some f → f nm = false) :
    parse_body_loop (n + 1) text ii filter_func acc =
      ⟨Node.obj (add_field acc nm v),
       consume_comments text (if vpos ≠ 0 then vpos else ii4),
       some err⟩ := by
  subst hii1 hii2 hii3 hii4
  rw [parse_body_loop, if_pos ⟨h1, h2⟩]
  cases filter_func with
  | none => simp only [hname, hval, if_true]
  | some f =>
    have hf : f nm = false := hkeep f rfl
    simp only [hname, hval, hf, Bool.not_false, if_true]

/-! ### Claim theorems -/

/-- C1: the round-trip property fails on the code.  The input `a: [ , ]`
parses with null error to a tree whose field `a` holds one list element
containing the empty-string scalar (the zero-character token produced by
`parse_token` at the `,`); `format` renders that element as `a: [  ]`,
which re-parses to a tree holding an **empty** list — not structurally
equal to the original. -/
theorem c1_round_trip_failure :
    (parse_proto ("a: [ , ]".toList) 0 none).error = none ∧
    (parse_proto ("a: [ , ]".toList) 0 none).value =
      Node.obj [("a", Node.arr [Node.arr [Node.str ""]])] ∧
    format (parse_proto ("a: [ , ]".toList) 0 none).value false "" = "a: [  ]\n" ∧
    (parse_proto ((format (parse_proto ("a: [ , ]".toList) 0 none).value false "").toList)
      0 none).error = none ∧
    (parse_proto ((format (parse_proto ("a: [ , ]".toList) 0 none).value false "").toList)
      0 none).value = Node.obj [("a", Node.arr [Node.arr []])] ∧
    (parse_proto ((format (parse_proto ("a: [ , ]".toList) 0 none).value false "").toList)
      0 none).value ≠ (parse_proto ("a: [ , ]".toList) 0 none).value := by
  refine ⟨rfl, rfl, rfl, rfl, rfl, ?_⟩
  decide

/-- C2 counterexample: the depth total of the all-scalar tree
`{a:["1"]}` is 1, not 0 — the `"map"` aggregation at the root increments
every field total by 1. -/
theorem c2_depth_counterexample :
    (get_depth_info (Node.obj [("a", Node.arr [Node.str "1"])])).total = 1 ∧
    (get_depth_info (Node.obj [("a", Node.arr [Node.str "1"])])).total ≠ 0 := by
  refine ⟨rfl, ?_⟩
  decide

/-- C2 amended: for every **non-empty** tree whose fields hold only
scalar elements the root depth total is 1 (each `"map"` step adds 1, so
only the empty tree has total 0), and for a tree with one field holding
one nested object that itself is a non-empty all-scalar tree the root
depth total is 2. -/
theorem c2_depth_amended (fields gf : List (String × Node)) (k : String)
    (hne : fields ≠ []) (hsc : scalarFields fields = true)
    (hne2 : gf ≠ []) (hsc2 : scalarFields gf = true) :
    (get_depth_info (Node.obj fields)).total = 1 ∧
    (get_depth_info (Node.obj [(k, Node.arr [Node.obj gf])])).total = 2 := by
  constructor
  · show (mpi_aux (fun _ _ _ => (0 : Nat)) depth_aggregator
      (Node.size (Node.obj fields) + 1) (Node.obj fields)).total = 1
    exact mpi_scalar_total (Node.size (Node.obj fields)) fields hne hsc
  · show (mpi_aux (fun _ _ _ => (0 : Nat)) depth_aggregator
      (Node.size (Node.obj [(k, Node.arr [Node.obj gf])]) + 1)
      (Node.obj [(k, Node.arr [Node.obj gf])])).total = 2
    have hsz : Node.size (Node.obj [(k, Node.arr [Node.obj gf])]) + 1 =
        (Node.size (Node.obj [(k, Node.arr [Node.obj gf])]) - 1) + 2 := by
      have := size_pos (Node.obj [(k, Node.arr [Node.obj gf])])
      omega
    rw [hsz]
    exact mpi_nested_total _ k gf hne2 hsc2

/-- C2 witness: the amended depth claims evaluated on `{a:["1"]}` and
`{a:[{b:["1"]}]}`. -/
theorem c2_depth_amended_witness :
    ([("a", Node.arr [Node.str "1"])] : List (String × Node)) ≠ [] ∧
    scalarFields [("a", Node.arr [Node.str "1"])] = true ∧
    (get_depth_info (Node.obj [("a", Node.arr [Node.str "1"])])).total = 1 ∧
    (get_depth_info (Node.obj [("a",
      Node.arr [Node.obj [("b", Node.arr [Node.str "1"])]])])).total = 2 :=
  ⟨by decide, by decide,
   (c2_depth_amended [("a", Node.arr [Node.str "1"])] [("b", Node.arr [Node.str "1"])] "a"
     (by decide) (by decide) (by decide) (by decide)).1,
   (c2_depth_amended [("a", Node.arr [Node.str "1"])] [("b", Node.arr [Node.str "1"])] "a"
     (by decide) (by decide) (by decide) (by decide)).2⟩

/-- C3: repeated field names append.  The `add_field` step of
`parse_body` appends the new value to the existing sequence (other
fields and the field order untouched) and creates the sequence at the
end of the field order on first occurrence; parsing
`a { b: 1 } a { b: 2 }` yields two positions under field `a`, in source
order, with null error. -/
theorem c3_repeated_fields_append :
    (∀ (t : List (String × Node)) (name : String) (v : Node) (xs : List Node),
      (t.map Prod.fst).Nodup → (name, Node.arr xs) ∈ t →
      List.lookup name (add_field t name v) = some (Node.arr (xs ++ [v]))) ∧
    (∀ (t : List (String × Node)) (name m : String) (v : Node), m ≠ name →
      List.lookup m (add_field t name v) = List.lookup m t) ∧
    (∀ (t : List (String × Node)) (name : String) (v : Node),
      (t.map Prod.fst).contains name = false →
      add_field t name v = t ++ [(name, Node.arr [v])]) ∧
    parse_proto ("a \x7b b: 1 \x7d a \x7b b: 2 \x7d".toList) 0 none =
      ⟨Node.obj [("a", Node.arr
        [Node.obj [("b", Node.arr [Node.str "1"])],
         Node.obj [("b", Node.arr [Node.str "2"])]])], 21, none⟩ :=
  ⟨lookup_add_field_self, lookup_add_field_other, add_field_absent, by decide⟩

/-- C3 witness: appending a second occurrence to field `a`. -/
theorem c3_repeated_fields_append_witness :
    List.lookup "a" (add_field [("a", Node.arr [Node.str "1"])] "a" (Node.str "2")) =
      some (Node.arr [Node.str "1", Node.str "2"]) :=
  c3_repeated_fields_append.1 [("a", Node.arr [Node.str "1"])] "a" (Node.str "2")
    [Node.str "1"] (by decide) (by decide)

/-- C4 counterexample: parsing `a: 1 b: "x" ` gives `b` the scalar
`"x"` **with** the surrounding quote characters, not the bare contents
`x` the claim states. -/
theorem c4_quoted_value_counterexample :
    (parse_proto ['a', ':', ' ', '1', ' ', 'b', ':', ' ', '"', 'x', '"', ' '] 0 none).error
      = none ∧
    (parse_proto ['a', ':', ' ', '1', ' ', 'b', ':', ' ', '"', 'x', '"', ' '] 0 none).value
      = Node.obj [("a", Node.arr [Node.str "1"]),
                  ("b", Node.arr [Node.str (String.mk ['"', 'x', '"'])])] ∧
    (parse_proto ['a', ':', ' ', '1', ' ', 'b', ':', ' ', '"', 'x', '"', ' '] 0 none).value
      ≠ Node.obj [("a", Node.arr [Node.str "1"]), ("b", Node.arr [Node.str "x"])] := by
  refine ⟨rfl, rfl, ?_⟩
  decide

/-- C4 amended: a successfully parsed quoted string yields the literal
text **including** both surrounding quote characters, escapes retained
verbatim; in particular `a: 1 b: "x" ` parses with null error to
`{a:["1"], b:["\x22x\x22"]}` (quotes kept). -/
theorem c4_quoted_value_amended :
    (∀ (text : List Char) (ii : Nat), (parse_string text ii).error = none →
      ∃ q pre, text.get? ii = some q ∧ (q = squote ∨ q = '"') ∧
        (parse_string text ii).value.data = q :: (pre ++ [q])) ∧
    parse_proto ['a', ':', ' ', '1', ' ', 'b', ':', ' ', '"', 'x', '"', ' '] 0 none =
      ⟨Node.obj [("a", Node.arr [Node.str "1"]),
                 ("b", Node.arr [Node.str (String.mk ['"', 'x', '"'])])], 12, none⟩ :=
  ⟨parse_string_success, by decide⟩

/-- C4 witness: the quoted token `"x"` parsed at offset 0. -/
theorem c4_quoted_value_amended_witness :
    ∃ q pre, (['"', 'x', '"'] : List Char).get? 0 = some q ∧ (q = squote ∨ q = '"') ∧
      (parse_string ['"', 'x', '"'] 0).value.data = q :: (pre ++ [q]) :=
  c4_quoted_value_amended.1 ['"', 'x', '"'] 0 (by decide)

/-- C5 counterexample: `a: [1, 2, 3]` does **not** parse to
`{a:["1","2","3"]}` — the whole list is pushed as a single element of
field `a`'s sequence. -/
theorem c5_list_counterexample :
    (parse_proto ("a: [1, 2, 3]".toList) 0 none).error = none ∧
    (parse_proto ("a: [1, 2, 3]".toList) 0 none).value ≠
      Node.obj [("a", Node.arr [Node.str "1", Node.str "2", Node.str "3"])] := by
  refine ⟨rfl, ?_⟩
  decide

/-- C5 amended: `a: [1, 2, 3]` parses with null error to
`{a:[["1","2","3"]]}` — field `a`'s sequence holds a single list-valued
element whose own entries are the three scalars in source order
(`parse_body` pushes `parse_list`'s whole array as one value). -/
theorem c5_list_amended :
    parse_proto ("a: [1, 2, 3]".toList) 0 none =
      ⟨Node.obj [("a", Node.arr [Node.arr [Node.str "1", Node.str "2", Node.str "3"]])],
       12, none⟩ := by
  decide

/-- C6 counterexample: `filter_proto` does not recurse into list-valued
elements, so a banned field nested inside a list survives: filtering
`{a:[[{c:["1"]}]]}` by `name == "c"` returns the tree unchanged and the
result still contains field `c`. -/
theorem c6_filter_counterexample :
    filter_proto [("a", Node.arr [Node.arr [Node.obj [("c", Node.arr [Node.str "1"])]]])]
        (fun k => k == "c") =
      [("a", Node.arr [Node.arr [Node.obj [("c", Node.arr [Node.str "1"])]]])] ∧
    bannedTree (fun k => k == "c")
      (filter_proto [("a", Node.arr [Node.arr [Node.obj [("c", Node.arr [Node.str "1"])]]])]
        (fun k => k == "c")) = true := by
  refine ⟨rfl, ?_⟩
  decide

/-- C6 amended: on trees of the spec's data model (every field an array
of scalars and objects — no list-valued elements), `filter_proto` drops
every banned field at any depth; in general it keeps exactly the
non-banned field names in order, keeps surviving scalar (and list)
elements unchanged while recursively filtering object elements, and the
spec's example holds. -/
theorem c6_filter_amended :
    (∀ (t : List (String × Node)) (p : String → Bool), wfTree t = true →
      bannedTree p (filter_proto t p) = false) ∧
    (∀ (t : List (String × Node)) (p : String → Bool),
      (filter_proto t p).map Prod.fst = (t.map Prod.fst).filter (fun k => !(p k))) ∧
    (∀ (t : List (String × Node)) (p : String → Bool) (k : String) (xs : List Node),
      (k, Node.arr xs) ∈ t → p k = false →
      (k, Node.arr (xs.map (fun e =>
        match e with
        | Node.obj fs => Node.obj (filter_proto fs p)
        | e => e))) ∈ filter_proto t p) ∧
    filter_proto [("a", Node.arr [Node.str "1"]),
                  ("b", Node.arr [Node.obj [("c", Node.arr [Node.str "2"])]])]
        (fun k => k == "c") =
      [("a", Node.arr [Node.str "1"]), ("b", Node.arr [Node.obj []])] :=
  ⟨filter_proto_no_banned, filter_proto_keys, filter_proto_content, by decide⟩

/-- C6 witness: the no-banned-field guarantee on the example tree. -/
theorem c6_filter_amended_witness :
    bannedTree (fun k => k == "c")
      (filter_proto [("a", Node.arr [Node.str "1"]),
                     ("b", Node.arr [Node.obj [("c", Node.arr [Node.str "2"])]])]
        (fun k => k == "c")) = false :=
  c6_filter_amended.1 _ _ (by decide)

/-- C7: `parse_list` discards a failing element's error.  On `['x` the
element parse fails with "No end of string found: 1", and `parse_list`
does abort at once and return the failing element's position without
consuming anything further — but its own `error` field is **null**
(`result.error` is never set on that path), so no error propagates up
the call chain. -/
theorem c7_list_error_swallowed :
    (parse_value ['[', squote, 'x'] 1 none).error = some "No end of string found: 1" ∧
    parse_list ['[', squote, 'x'] 0 none = ⟨Node.arr [], 3, none⟩ := by
  exact ⟨rfl, rfl⟩

/-- C8: `parse_token` never raises "Error parsing token".  At `;` (not
a quote, zero characters of the token class match) the consumed run is
empty, yet the result is the silent success `{value: "", position: 0,
error: null}` — because `is_defined` is true on every string, the empty
string included, the error branch is dead code. -/
theorem c8_token_error_never_raised :
    (consume_regexp [';'] 0 isTokenChar).value = "" ∧
    ([';'] : List Char).get? 0 ≠ some '"' ∧
    ([';'] : List Char).get? 0 ≠ some squote ∧
    (∀ s : String, is_defined s = true) ∧
    parse_token [';'] 0 false = ⟨"", 0, none⟩ := by
  refine ⟨rfl, by decide, by decide, fun _ => rfl, rfl⟩

/-- C9 counterexample: slicing `{a:[{b:["1"]}]}` with a predicate that
keeps nothing still returns `{a:[{}]}` — the empty recursive result is
pushed unconditionally, so field `a` is present although the claim says
it must be absent. -/
theorem c9_slice_counterexample :
    proto_slice [("a", Node.arr [Node.obj [("b", Node.arr [Node.str "1"])]])]
        (fun _ _ => false) =
      [("a", Node.arr [Node.obj []])] ∧
    (List.lookup "a" (proto_slice
      [("a", Node.arr [Node.obj [("b", Node.arr [Node.str "1"])]])]
      (fun _ _ => false))).isSome = true := by
  refine ⟨rfl, ?_⟩
  decide

/-- C9 amended: every object-valued element is recursed into and its
recursive result is **always** kept under its field, even when empty;
a field is present in the result exactly when its kept-element list
(`sliceKept`: every object element, plus the non-object elements the
predicate accepts) is non-empty, and absent (for trees with distinct
field names) when that list is empty. -/
theorem c9_slice_amended :
    (∀ (t : List (String × Node)) (p : String → Node → Bool) (k : String) (xs : List Node),
      (k, Node.arr xs) ∈ t → sliceKept p k xs ≠ [] →
      (k, Node.arr (sliceKept p k xs)) ∈ proto_slice t p) ∧
    (∀ (t : List (String × Node)) (p : String → Node → Bool) (k : String) (xs : List Node),
      (k, Node.arr xs) ∈ t → (t.map Prod.fst).Nodup → sliceKept p k xs = [] →
      ∀ w, (k, w) ∉ proto_slice t p) :=
  ⟨fun t p k xs h1 h2 => proto_slice_mem t p k xs h1 h2,
   fun t p k xs h1 h2 h3 => proto_slice_not_mem t p k xs h1 h2 h3⟩

/-- C9 witness: the always-kept object element on the counterexample
tree. -/
theorem c9_slice_amended_witness :
    ("a", Node.arr (sliceKept (fun _ _ => false) "a"
        [Node.obj [("b", Node.arr [Node.str "1"])]])) ∈
      proto_slice [("a", Node.arr [Node.obj [("b", Node.arr [Node.str "1"])]])]
        (fun _ _ => false) :=
  c9_slice_amended.1 [("a", Node.arr [Node.obj [("b", Node.arr [Node.str "1"])]])]
    (fun _ _ => false) "a" [Node.obj [("b", Node.arr [Node.str "1"])]]
    (by decide) (by decide)

/-- C10: when a field's value fails to parse inside the body loop, the
partially parsed value is appended to that field's sequence (unless the
filter excludes the name) **before** the loop stops with the value's
error — so the partial result contains the failing field too.  The
concrete input `a: 'x` illustrates it at the top level: the result maps
`a` to the partial scalar while the error is propagated. -/
theorem c10_body_keeps_failing_field :
    (∀ (n : Nat) (text : List Char) (ii : Nat) (filter_func : Option (String → Bool))
      (acc : List (String × Node)) (nm : String) (npos : Nat) (v : Node) (vpos : Nat)
      (err : String) (ii1 ii2 ii3 ii4 : Nat),
      ii < text.length → text.get? ii ≠ some '}' →
      ii1 = consume_comments text ii →
      parse_token text ii1 true = ⟨nm, npos, none⟩ →
      ii2 = consume_comments text npos →
      ii3 = (if text.get? ii2 = some ':' then ii2 + 1 else ii2) →
      ii4 = consume_comments text ii3 →
      parse_value_aux n text ii4 filter_func = ⟨v, vpos, some err⟩ →
      (∀ f, filter_func = some f → f nm = false) →
      parse_body_loop (n + 1) text ii filter_func acc =
        ⟨Node.obj (add_field acc nm v),
         consume_comments text (if vpos ≠ 0 then vpos else ii4),
         some err⟩) ∧
    parse_proto ['a', ':', ' ', squote, 'x'] 0 none =
      ⟨Node.obj [("a", Node.arr [Node.str (String.mk [squote, 'x'])])], 5,
       some "No end of string found: 3"⟩ :=
  ⟨fun n text ii ff acc nm npos v vpos err ii1 ii2 ii3 ii4 h1 h2 hii1 hname hii2 hii3
      hii4 hval hkeep =>
    parse_body_loop_keeps_failing_field n text ii ff acc nm npos v vpos err ii1 ii2 ii3 ii4
      h1 h2 hii1 hname hii2 hii3 hii4 hval hkeep,
   by decide⟩

/-- C10 witness: one body-loop iteration on `a: 'x` appending the
partial value under `a` and propagating the string error. -/
theorem c10_body_keeps_failing_field_witness :
    parse_body_loop 2 ['a', ':', ' ', squote, 'x'] 0 none [] =
      ⟨Node.obj [("a", Node.arr [Node.str (String.mk [squote, 'x'])])], 5,
       some "No end of string found: 3"⟩ :=
  c10_body_keeps_failing_field.1 1 ['a', ':', ' ', squote, 'x'] 0 none []
    "a" 1 (Node.str (String.mk [squote, 'x'])) 5 "No end of string found: 3"
    0 1 2 3 (by decide) (by decide) (by decide)
    (by decide) (by decide) (by decide) (by decide) (by decide)
    (fun f h => Option.noConfusion h)

end protoviewer
